import Mathlib

/-!
Verification of the bf-dnc repository: brute-force versus divide-and-conquer
implementations of matrix multiplication (src/matrix_multiply.cpp), factorial
(src/factorial.cpp) and prime counting (the prime-number source file).

Matrices are embedded as total functions `Nat → Nat → Int`; the C++ functions
mutate a destination array `C`, so each one is modelled as a state transformer
on a triple `(A, B, C)` whose loops are rendered as structural recursions, one
recursive step per loop iteration.  Machine `long long` entries are modelled
as unbounded integers (the spec stipulates exact integer arithmetic);
`unsigned long long` factorial values are naturals reduced modulo `2 ^ 64`.
-/

namespace BfDnc

/-- Integer matrices, as total functions from a pair of indices to an entry.
The C++ arrays have extent `n × n`; indices beyond the extent model memory
the program never reads for the inputs under consideration. -/
abbrev Mat : Type := Nat → Nat → Int

/-- The everywhere-zero matrix; also the model chosen for the contents of a
freshly allocated scratch array. -/
def zeroM : Mat := fun _ _ => 0

/-- The identity pattern: ones on the diagonal, zeros elsewhere. -/
def idM : Mat := fun i j => if i = j then 1 else 0

/-- Writing value `v` into cell `(i, j)` of matrix `C`. -/
def updC (C : Mat) (i j : Nat) (v : Int) : Mat :=
  fun a b => if a = i ∧ b = j then v else C a b

/-- The state acted on by `matrixMultiplyBruteForce(A, B, C, n)` and
`matrixMultiplyDivideConquer(A, B, C, n)`: the three matrices the C++
functions receive by pointer. -/
structure St where
  A : Mat
  B : Mat
  C : Mat

/-- Value accumulated in `C[i][j]` by the inner `k` loop of
`matrixMultiplyBruteForce` after `m` iterations: the multiply-add is skipped
when either factor is zero, exactly as in the source. -/
def dotK (A B : Mat) (i j : Nat) : Nat → Int
  | 0 => 0
  | k + 1 =>
      dotK A B i j k + (if A i k ≠ 0 ∧ B k j ≠ 0 then A i k * B k j else 0)

/-- The unconditional accumulation the spec compares against: no zero test. -/
def dotPlain (A B : Mat) (i j : Nat) : Nat → Int
  | 0 => 0
  | k + 1 => dotPlain A B i j k + A i k * B k j

/-- Inner `k` loop of `matrixMultiplyBruteForce` at row `i`, column `j`:
first `C[i][j] = 0`, then `m` guarded multiply-add iterations. -/
def bfK (s : St) (i j : Nat) : Nat → St
  | 0 => ⟨s.A, s.B, updC s.C i j 0⟩
  | k + 1 =>
      let t := bfK s i j k
      if t.A i k ≠ 0 ∧ t.B k j ≠ 0 then
        ⟨t.A, t.B, updC t.C i j (t.C i j + t.A i k * t.B k j)⟩
      else t

/-- Middle `j` loop of `matrixMultiplyBruteForce` at row `i`:
`m` executions of the inner loop, each of length `n`. -/
def bfJ (s : St) (i n : Nat) : Nat → St
  | 0 => s
  | j + 1 => bfK (bfJ s i n j) i j n

/-- Outer `i` loop of `matrixMultiplyBruteForce`. -/
def bfI (s : St) (n : Nat) : Nat → St
  | 0 => s
  | i + 1 => bfJ (bfI s n i) i n n

/-- Embedding of `matrixMultiplyBruteForce(A, B, C, n)`
(src/matrix_multiply.cpp, lines 25-36). -/
def matrixMultiplyBruteForce (s : St) (n : Nat) : St := bfI s n n

/-- Modelled from the spec: the "unconditional triple loop" the spec declares
the zero-skipping brute force identical to.  Inner loop without the zero
test. -/
def ubK (s : St) (i j : Nat) : Nat → St
  | 0 => ⟨s.A, s.B, updC s.C i j 0⟩
  | k + 1 =>
      let t := ubK s i j k
      ⟨t.A, t.B, updC t.C i j (t.C i j + t.A i k * t.B k j)⟩

/-- Modelled from the spec: middle loop of the unconditional triple loop. -/
def ubJ (s : St) (i n : Nat) : Nat → St
  | 0 => s
  | j + 1 => ubK (ubJ s i n j) i j n

/-- Modelled from the spec: outer loop of the unconditional triple loop. -/
def ubI (s : St) (n : Nat) : Nat → St
  | 0 => s
  | i + 1 => ubJ (ubI s n i) i n n

/-- Modelled from the spec: brute-force multiplication as the unconditional
triple loop, the comparison point of claim C3. -/
def bruteForceUnconditional (s : St) (n : Nat) : St := ubI s n n

/-- Inner `j` loop of `addMatrix` at row `i`. -/
def addRow (A B : Mat) (i : Nat) (C : Mat) : Nat → Mat
  | 0 => C
  | j + 1 => updC (addRow A B i C j) i j (A i j + B i j)

/-- Outer `i` loop of `addMatrix`, each row of width `n`. -/
def addRows (A B C : Mat) (n : Nat) : Nat → Mat
  | 0 => C
  | i + 1 => addRow A B i (addRows A B C n i) n

/-- Embedding of `addMatrix(A, B, C, n)` (src/matrix_multiply.cpp,
lines 53-59): writes `A[i][j] + B[i][j]` into `C[i][j]` for `i, j < n`. -/
def addMatrix (A B C : Mat) (n : Nat) : Mat := addRows A B C n n

/-- Inner `j` loop of `subtractMatrix` at row `i`. -/
def subRow (A B : Mat) (i : Nat) (C : Mat) : Nat → Mat
  | 0 => C
  | j + 1 => updC (subRow A B i C j) i j (A i j - B i j)

/-- Outer `i` loop of `subtractMatrix`. -/
def subRows (A B C : Mat) (n : Nat) : Nat → Mat
  | 0 => C
  | i + 1 => subRow A B i (subRows A B C n i) n

/-- Embedding of `subtractMatrix(A, B, C, n)` (src/matrix_multiply.cpp,
lines 76-82). -/
def subtractMatrix (A B C : Mat) (n : Nat) : Mat := subRows A B C n n

/-- Top-left quadrant copy `A11[i][j] = A[i][j]` produced by the split loop of
`matrixMultiplyDivideConquer`; cells at or beyond `half` model the
never-read remainder of the fresh allocation, taken to be zero. -/
def quadTL (M : Mat) (h : Nat) : Mat :=
  fun p q => if p < h ∧ q < h then M p q else 0

/-- Top-right quadrant copy `A12[i][j] = A[i][j + half]`. -/
def quadTR (M : Mat) (h : Nat) : Mat :=
  fun p q => if p < h ∧ q < h then M p (q + h) else 0

/-- Bottom-left quadrant copy `A21[i][j] = A[i + half][j]`. -/
def quadBL (M : Mat) (h : Nat) : Mat :=
  fun p q => if p < h ∧ q < h then M (p + h) q else 0

/-- Bottom-right quadrant copy `A22[i][j] = A[i + half][j + half]`. -/
def quadBR (M : Mat) (h : Nat) : Mat :=
  fun p q => if p < h ∧ q < h then M (p + h) (q + h) else 0

/-- Inner `j` loop of the combination step of `matrixMultiplyDivideConquer`
(src/matrix_multiply.cpp, lines 222-229): at row `i` it writes the four cells
`(i, j)`, `(i, j + half)`, `(i + half, j)`, `(i + half, j + half)` of `C` from
the seven product matrices, in source order. -/
def combineRow (P1 P2 P3 P4 P5 P6 P7 : Mat) (h i : Nat) (C : Mat) : Nat → Mat
  | 0 => C
  | j + 1 =>
      let c0 := combineRow P1 P2 P3 P4 P5 P6 P7 h i C j
      let c1 := updC c0 i j (P5 i j + P4 i j - P2 i j + P6 i j)
      let c2 := updC c1 i (j + h) (P1 i j + P2 i j)
      let c3 := updC c2 (i + h) j (P3 i j + P4 i j)
      updC c3 (i + h) (j + h) (P5 i j + P1 i j - P3 i j - P7 i j)

/-- Outer `i` loop of the combination step, `m` rows each of width `h`. -/
def combineAll (P1 P2 P3 P4 P5 P6 P7 : Mat) (h : Nat) (C : Mat) : Nat → Mat
  | 0 => C
  | i + 1 => combineRow P1 P2 P3 P4 P5 P6 P7 h i
      (combineAll P1 P2 P3 P4 P5 P6 P7 h C i) h

/-- Embedding of `matrixMultiplyDivideConquer(A, B, C, n)`
(src/matrix_multiply.cpp, lines 130-244), with a structural fuel argument
bounding the recursion depth (the recursion decreases `n` to `n / 2`, so any
fuel at least `n` realises the C++ recursion; `matrixMultiplyDivideConquer`
below passes `n`).  For `n ≤ 2` it delegates to the brute force; otherwise it
copies the eight quadrants, forms the seven Strassen products through
recursive calls whose scratch operands are built by `subtractMatrix` and
`addMatrix` into fresh (zero-modelled) buffers, and runs the combination
loop on `C`.  The source reuses two scratch buffers `temp1`, `temp2`; since
every use first overwrites the whole `half × half` extent, each use is
modelled as a fresh buffer. -/
def dcAux : Nat → St → Nat → St
  | 0, s, _ => s
  | fuel + 1, s, n =>
      if n ≤ 2 then matrixMultiplyBruteForce s n
      else
        ⟨s.A, s.B,
          combineAll
            ((dcAux fuel ⟨quadTL s.A (n / 2),
                subtractMatrix (quadTR s.B (n / 2)) (quadBR s.B (n / 2)) zeroM (n / 2),
                zeroM⟩ (n / 2)).C)
            ((dcAux fuel ⟨addMatrix (quadTL s.A (n / 2)) (quadTR s.A (n / 2)) zeroM (n / 2),
                quadBR s.B (n / 2), zeroM⟩ (n / 2)).C)
            ((dcAux fuel ⟨addMatrix (quadBL s.A (n / 2)) (quadBR s.A (n / 2)) zeroM (n / 2),
                quadTL s.B (n / 2), zeroM⟩ (n / 2)).C)
            ((dcAux fuel ⟨quadBR s.A (n / 2),
                subtractMatrix (quadBL s.B (n / 2)) (quadTL s.B (n / 2)) zeroM (n / 2),
                zeroM⟩ (n / 2)).C)
            ((dcAux fuel ⟨addMatrix (quadTL s.A (n / 2)) (quadBR s.A (n / 2)) zeroM (n / 2),
                addMatrix (quadTL s.B (n / 2)) (quadBR s.B (n / 2)) zeroM (n / 2),
                zeroM⟩ (n / 2)).C)
            ((dcAux fuel ⟨subtractMatrix (quadTR s.A (n / 2)) (quadBR s.A (n / 2)) zeroM (n / 2),
                addMatrix (quadBL s.B (n / 2)) (quadBR s.B (n / 2)) zeroM (n / 2),
                zeroM⟩ (n / 2)).C)
            ((dcAux fuel ⟨subtractMatrix (quadTL s.A (n / 2)) (quadBL s.A (n / 2)) zeroM (n / 2),
                addMatrix (quadTL s.B (n / 2)) (quadTR s.B (n / 2)) zeroM (n / 2),
                zeroM⟩ (n / 2)).C)
            (n / 2) s.C (n / 2)⟩

/-- Embedding of the top-level `matrixMultiplyDivideConquer` call. -/
def matrixMultiplyDivideConquer (s : St) (n : Nat) : St := dcAux n s n

/-- Inner `j` loop of `verifyMatrices` at row `i`: conjunction of elementwise
equality over `j < m` (early return on a mismatch yields the same value). -/
def verifyRow (A B : Mat) (i : Nat) : Nat → Bool
  | 0 => true
  | j + 1 => verifyRow A B i j && decide (A i j = B i j)

/-- Outer `i` loop of `verifyMatrices`. -/
def verifyAll (A B : Mat) (n : Nat) : Nat → Bool
  | 0 => true
  | i + 1 => verifyAll A B n i && verifyRow A B i n

/-- Embedding of `verifyMatrices(A, B, n)` (src/matrix_multiply.cpp,
lines 261-268). -/
def verifyMatrices (A B : Mat) (n : Nat) : Bool := verifyAll A B n n

/-- Sizes for which the divide-and-conquer recursion reaches the base case by
exact halving: either already in the base case, or even with a good half. -/
inductive HalvesToBase : Nat → Prop
  | base : ∀ n, n ≤ 2 → HalvesToBase n
  | step : ∀ n, n % 2 = 0 → HalvesToBase (n / 2) → HalvesToBase n

/-- Modelled from the claim C2 text (and the spec's algorithm description):
the Strassen scheme stated with plain pointwise quadrant selectors, pointwise
additions and subtractions feeding the recursive calls, and the four
combination formulas written per cell; outside the written region the
destination keeps its previous content.  The fuel argument mirrors the one of
`dcAux`. -/
def strassenSpecAux : Nat → Mat → Mat → Mat → Nat → Mat
  | 0, _, _, C, _ => C
  | fuel + 1, A, B, C, n =>
      if n ≤ 2 then (matrixMultiplyBruteForce ⟨A, B, C⟩ n).C
      else
        let h := n / 2
        let A11 : Mat := fun p q => A p q
        let A12 : Mat := fun p q => A p (q + h)
        let A21 : Mat := fun p q => A (p + h) q
        let A22 : Mat := fun p q => A (p + h) (q + h)
        let B11 : Mat := fun p q => B p q
        let B12 : Mat := fun p q => B p (q + h)
        let B21 : Mat := fun p q => B (p + h) q
        let B22 : Mat := fun p q => B (p + h) (q + h)
        let P1 := strassenSpecAux fuel A11 (fun p q => B12 p q - B22 p q) zeroM h
        let P2 := strassenSpecAux fuel (fun p q => A11 p q + A12 p q) B22 zeroM h
        let P3 := strassenSpecAux fuel (fun p q => A21 p q + A22 p q) B11 zeroM h
        let P4 := strassenSpecAux fuel A22 (fun p q => B21 p q - B11 p q) zeroM h
        let P5 := strassenSpecAux fuel (fun p q => A11 p q + A22 p q)
          (fun p q => B11 p q + B22 p q) zeroM h
        let P6 := strassenSpecAux fuel (fun p q => A12 p q - A22 p q)
          (fun p q => B21 p q + B22 p q) zeroM h
        let P7 := strassenSpecAux fuel (fun p q => A11 p q - A21 p q)
          (fun p q => B11 p q + B12 p q) zeroM h
        fun a b =>
          if a < h ∧ b < h then
            P5 a b + P4 a b - P2 a b + P6 a b
          else if a < h ∧ h ≤ b ∧ b < h + h then
            P1 a (b - h) + P2 a (b - h)
          else if h ≤ a ∧ a < h + h ∧ b < h then
            P3 (a - h) b + P4 (a - h) b
          else if h ≤ a ∧ a < h + h ∧ h ≤ b ∧ b < h + h then
            P5 (a - h) (b - h) + P1 (a - h) (b - h) - P3 (a - h) (b - h) - P7 (a - h) (b - h)
          else C a b

/-- Modelled from the claim C2 text: the full Strassen algorithm as the claim
states it. -/
def strassenSpec (A B C : Mat) (n : Nat) : Mat := strassenSpecAux n A B C n

/-- Modulus of `unsigned long long` arithmetic. -/
def M64 : Nat := 2 ^ 64

/-- Loop of `factorialBruteForce` (src/factorial.cpp, lines 22-30): starting
from `result = 1`, multiply by every `i` from `2` to `m` in `unsigned long
long` arithmetic. -/
def fbfGo : Nat → Nat
  | 0 => 1
  | m + 1 => if m + 1 ≤ 1 then 1 else fbfGo m * (m + 1) % M64

/-- Embedding of `factorialBruteForce(n)`: early return `1` for `n ≤ 1`
(including negative `int` inputs), otherwise the product loop. -/
def factorialBruteForce (n : Int) : Nat :=
  if n ≤ 1 then 1 else fbfGo n.toNat

/-- The static memoization array of `factorialDivideConquer`, as a function
from index to stored value (`0` meaning "not computed"). -/
abbrev Memo : Type := Nat → Nat

/-- Initial contents of the static array `memo[100] = {0}`. -/
def memoInit : Memo := fun _ => 0

/-- Recursive part of `factorialDivideConquer` (src/factorial.cpp,
lines 50-60) for arguments that passed the `n ≤ 1` early return, with the
static array threaded as explicit state: if `memo[n]` is nonzero return it,
otherwise recurse, store `n * result` modulo `2 ^ 64` into `memo[n]`, and
return the stored value. -/
def fdcGo : Nat → Memo → Nat × Memo
  | 0, memo => (1, memo)
  | 1, memo => (1, memo)
  | m + 2, memo =>
      if memo (m + 2) ≠ 0 then (memo (m + 2), memo)
      else
        let r := fdcGo (m + 1) memo
        let v := (m + 2) * r.1 % M64
        (v, fun a => if a = m + 2 then v else r.2 a)

/-- Embedding of `factorialDivideConquer(n)`: result value paired with the
updated cache state. -/
def factorialDivideConquer (n : Int) (memo : Memo) : Nat × Memo :=
  if n ≤ 1 then (1, memo) else fdcGo n.toNat memo

/-- Invariant of the memoization array: every entry is unset or holds the
factorial of its index modulo `2 ^ 64`. -/
def memoInv (memo : Memo) : Prop :=
  ∀ k, memo k = 0 ∨ memo k = Nat.factorial k % M64

/-- Cache states reachable from program start: the zero-initialised static
array, closed under calls of `factorialDivideConquer` with any `int`
argument at most `99` (larger arguments overrun the 100-entry array). -/
inductive ReachableMemo : Memo → Prop
  | init : ReachableMemo memoInit
  | step : ∀ memo (n : Int), ReachableMemo memo → n ≤ 99 →
      ReachableMemo (factorialDivideConquer n memo).2

/-- Trial loop of `isPrimeBruteForce` (prime source file, lines 28-30):
`for (i = 5; i < m; i += 2) if (m % i == 0) return false`, rendered with a
structural iteration bound; `c = m` iterations always suffice to drive `i`
past `m`. -/
def bfpLoop (m : Nat) : Nat → Nat → Bool
  | 0, _ => true
  | c + 1, i =>
      if i < m then (if m % i = 0 then false else bfpLoop m c (i + 2))
      else true

/-- Embedding of `isPrimeBruteForce(n)` (prime source file, lines 23-32). -/
def isPrimeBruteForce (n : Int) : Bool :=
  if n ≤ 1 then false
  else if n ≤ 3 then true
  else if n % 2 = 0 ∨ n % 3 = 0 then false
  else bfpLoop n.toNat n.toNat 5

/-- Trial loop of `isPrimeDivideConquer` (prime source file, lines 59-61):
`for (i = 5; i <= sqrtN; i += 6) if (m % i == 0 || m % (i+2) == 0) return
false`, with the same structural iteration bound. -/
def dcpLoop (m s : Nat) : Nat → Nat → Bool
  | 0, _ => true
  | c + 1, i =>
      if i ≤ s then
        (if m % i = 0 ∨ m % (i + 2) = 0 then false else dcpLoop m s c (i + 6))
      else true

/-- Embedding of `isPrimeDivideConquer(n)` (prime source file, lines 53-63).
The source computes `static_cast<int>(std::sqrt(n))`; for every value of the
C++ `int` range the correctly rounded double square root truncates to the
integer square root, so it is embedded as `Nat.sqrt`. -/
def isPrimeDivideConquer (n : Int) : Bool :=
  if n ≤ 1 then false
  else if n ≤ 3 then true
  else if n % 2 = 0 ∨ n % 3 = 0 then false
  else dcpLoop n.toNat (Nat.sqrt n.toNat) n.toNat 5

/-- Counting loop of `countPrimesBruteForce` (prime source file,
lines 81-89): tests every `i` from `2` to `m`. -/
def cpbGo : Nat → Nat
  | 0 => 0
  | 1 => 0
  | m + 2 => cpbGo (m + 1) + (if isPrimeBruteForce ((m : Int) + 2) then 1 else 0)

/-- Embedding of `countPrimesBruteForce(n)`. -/
def countPrimesBruteForce (n : Int) : Nat := cpbGo n.toNat

/-- Counting loop of `countPrimesDivideConquer` (prime source file,
lines 107-115). -/
def cpdGo : Nat → Nat
  | 0 => 0
  | 1 => 0
  | m + 2 => cpdGo (m + 1) + (if isPrimeDivideConquer ((m : Int) + 2) then 1 else 0)

/-- Embedding of `countPrimesDivideConquer(n)`. -/
def countPrimesDivideConquer (n : Int) : Nat := cpdGo n.toNat

/-! Characterisation of the brute-force multiplication loops. -/

theorem bfK_A (s : St) (i j : Nat) : ∀ m, (bfK s i j m).A = s.A := by
  intro m
  induction m with
  | zero => rfl
  | succ k ih =>
      simp only [bfK]
      split
      · exact ih
      · exact ih

theorem bfK_B (s : St) (i j : Nat) : ∀ m, (bfK s i j m).B = s.B := by
  intro m
  induction m with
  | zero => rfl
  | succ k ih =>
      simp only [bfK]
      split
      · exact ih
      · exact ih

theorem bfJ_A (s : St) (i n : Nat) : ∀ m, (bfJ s i n m).A = s.A := by
  intro m
  induction m with
  | zero => rfl
  | succ j ih => simp only [bfJ]; rw [bfK_A, ih]

theorem bfJ_B (s : St) (i n : Nat) : ∀ m, (bfJ s i n m).B = s.B := by
  intro m
  induction m with
  | zero => rfl
  | succ j ih => simp only [bfJ]; rw [bfK_B, ih]

theorem bfI_A (s : St) (n : Nat) : ∀ m, (bfI s n m).A = s.A := by
  intro m
  induction m with
  | zero => rfl
  | succ i ih => simp only [bfI]; rw [bfJ_A, ih]

theorem bfI_B (s : St) (n : Nat) : ∀ m, (bfI s n m).B = s.B := by
  intro m
  induction m with
  | zero => rfl
  | succ i ih => simp only [bfI]; rw [bfJ_B, ih]

theorem bfK_C (s : St) (i j : Nat) :
    ∀ m a b, (bfK s i j m).C a b =
      if a = i ∧ b = j then dotK s.A s.B i j m else s.C a b := by
  intro m
  induction m with
  | zero => intro a b; simp [bfK, updC, dotK]
  | succ k ih =>
      intro a b
      simp only [bfK]
      by_cases h : (bfK s i j k).A i k ≠ 0 ∧ (bfK s i j k).B k j ≠ 0
      · rw [if_pos h]
        rw [bfK_A, bfK_B] at h
        show updC (bfK s i j k).C i j
            ((bfK s i j k).C i j + (bfK s i j k).A i k * (bfK s i j k).B k j) a b = _
        rw [bfK_A, bfK_B]
        by_cases hab : a = i ∧ b = j
        · rcases hab with ⟨rfl, rfl⟩
          simp [updC, ih, dotK, h]
        · simp only [updC, if_neg hab]
          rw [ih a b, if_neg hab]
      · rw [if_neg h]
        rw [bfK_A, bfK_B] at h
        rw [ih a b]
        by_cases hab : a = i ∧ b = j
        · rcases hab with ⟨rfl, rfl⟩
          simp [dotK, h]
        · simp [hab]

theorem bfJ_C (s : St) (i n : Nat) :
    ∀ m a b, (bfJ s i n m).C a b =
      if a = i ∧ b < m then dotK s.A s.B i b n else s.C a b := by
  intro m
  induction m with
  | zero => intro a b; simp [bfJ]
  | succ m ih =>
      intro a b
      simp only [bfJ]
      rw [bfK_C, bfJ_A, bfJ_B, ih a b]
      by_cases h2 : a = i ∧ b = m
      · rcases h2 with ⟨rfl, rfl⟩
        simp
      · rw [if_neg h2]
        by_cases h3 : a = i ∧ b < m
        · rw [if_pos h3, if_pos ⟨h3.1, by omega⟩]
        · rw [if_neg h3, if_neg ?_]
          rintro ⟨rfl, hb⟩
          have hbm : b ≠ m := fun e => h2 ⟨rfl, e⟩
          exact h3 ⟨rfl, by omega⟩

theorem bfI_C (s : St) (n : Nat) :
    ∀ m a b, (bfI s n m).C a b =
      if a < m ∧ b < n then dotK s.A s.B a b n else s.C a b := by
  intro m
  induction m with
  | zero => intro a b; simp [bfI]
  | succ m ih =>
      intro a b
      simp only [bfI]
      rw [bfJ_C, bfI_A, bfI_B, ih a b]
      by_cases h2 : a = m ∧ b < n
      · rcases h2 with ⟨rfl, hb⟩
        simp [hb]
      · rw [if_neg h2]
        by_cases h3 : a < m ∧ b < n
        · rw [if_pos h3, if_pos ⟨by omega, h3.2⟩]
        · rw [if_neg h3, if_neg ?_]
          rintro ⟨ha, hb⟩
          have ham : a ≠ m := fun e => h2 ⟨e, hb⟩
          exact h3 ⟨by omega, hb⟩

/-- Cellwise description of `matrixMultiplyBruteForce`: inside the `n × n`
extent the destination holds the guarded dot product, elsewhere it keeps its
previous contents. -/
theorem bruteForce_C (s : St) (n a b : Nat) :
    (matrixMultiplyBruteForce s n).C a b =
      if a < n ∧ b < n then dotK s.A s.B a b n else s.C a b :=
  bfI_C s n n a b

/-! The unconditional triple loop, characterised the same way. -/

theorem ubK_A (s : St) (i j : Nat) : ∀ m, (ubK s i j m).A = s.A := by
  intro m
  induction m with
  | zero => rfl
  | succ k ih => simp only [ubK]; exact ih

theorem ubK_B (s : St) (i j : Nat) : ∀ m, (ubK s i j m).B = s.B := by
  intro m
  induction m with
  | zero => rfl
  | succ k ih => simp only [ubK]; exact ih

theorem ubJ_A (s : St) (i n : Nat) : ∀ m, (ubJ s i n m).A = s.A := by
  intro m
  induction m with
  | zero => rfl
  | succ j ih => simp only [ubJ]; rw [ubK_A, ih]

theorem ubJ_B (s : St) (i n : Nat) : ∀ m, (ubJ s i n m).B = s.B := by
  intro m
  induction m with
  | zero => rfl
  | succ j ih => simp only [ubJ]; rw [ubK_B, ih]

theorem ubI_A (s : St) (n : Nat) : ∀ m, (ubI s n m).A = s.A := by
  intro m
  induction m with
  | zero => rfl
  | succ i ih => simp only [ubI]; rw [ubJ_A, ih]

theorem ubI_B (s : St) (n : Nat) : ∀ m, (ubI s n m).B = s.B := by
  intro m
  induction m with
  | zero => rfl
  | succ i ih => simp only [ubI]; rw [ubJ_B, ih]

theorem ubK_C (s : St) (i j : Nat) :
    ∀ m a b, (ubK s i j m).C a b =
      if a = i ∧ b = j then dotPlain s.A s.B i j m else s.C a b := by
  intro m
  induction m with
  | zero => intro a b; simp [ubK, updC, dotPlain]
  | succ k ih =>
      intro a b
      simp only [ubK]
      show updC (ubK s i j k).C i j
          ((ubK s i j k).C i j + (ubK s i j k).A i k * (ubK s i j k).B k j) a b = _
      rw [ubK_A, ubK_B]
      by_cases hab : a = i ∧ b = j
      · rcases hab with ⟨rfl, rfl⟩
        simp [updC, ih, dotPlain]
      · simp only [updC, if_neg hab]
        rw [ih a b, if_neg hab]

theorem ubJ_C (s : St) (i n : Nat) :
    ∀ m a b, (ubJ s i n m).C a b =
      if a = i ∧ b < m then dotPlain s.A s.B i b n else s.C a b := by
  intro m
  induction m with
  | zero => intro a b; simp [ubJ]
  | succ m ih =>
      intro a b
      simp only [ubJ]
      rw [ubK_C, ubJ_A, ubJ_B, ih a b]
      by_cases h2 : a = i ∧ b = m
      · rcases h2 with ⟨rfl, rfl⟩
        simp
      · rw [if_neg h2]
        by_cases h3 : a = i ∧ b < m
        · rw [if_pos h3, if_pos ⟨h3.1, by omega⟩]
        · rw [if_neg h3, if_neg ?_]
          rintro ⟨rfl, hb⟩
          have hbm : b ≠ m := fun e => h2 ⟨rfl, e⟩
          exact h3 ⟨rfl, by omega⟩

theorem ubI_C (s : St) (n : Nat) :
    ∀ m a b, (ubI s n m).C a b =
      if a < m ∧ b < n then dotPlain s.A s.B a b n else s.C a b := by
  intro m
  induction m with
  | zero => intro a b; simp [ubI]
  | succ m ih =>
      intro a b
      simp only [ubI]
      rw [ubJ_C, ubI_A, ubI_B, ih a b]
      by_cases h2 : a = m ∧ b < n
      · rcases h2 with ⟨rfl, hb⟩
        simp [hb]
      · rw [if_neg h2]
        by_cases h3 : a < m ∧ b < n
        · rw [if_pos h3, if_pos ⟨by omega, h3.2⟩]
        · rw [if_neg h3, if_neg ?_]
          rintro ⟨ha, hb⟩
          have ham : a ≠ m := fun e => h2 ⟨e, hb⟩
          exact h3 ⟨by omega, hb⟩

/-! Dot-product lemmas. -/

/-- Skipping zero factors does not change the accumulated value. -/
theorem dotK_eq_dotPlain (A B : Mat) (i j : Nat) :
    ∀ m, dotK A B i j m = dotPlain A B i j m := by
  intro m
  induction m with
  | zero => rfl
  | succ k ih =>
      simp only [dotK, dotPlain, ih]
      by_cases h : A i k ≠ 0 ∧ B k j ≠ 0
      · rw [if_pos h]
      · rw [if_neg h]
        rcases Decidable.not_and_iff_or_not.mp h with h0 | h0 <;>
          simp [Decidable.not_not.mp h0]

/-- The unconditional accumulation is the finite sum of products. -/
theorem dotPlain_eq_sum (A B : Mat) (i j : Nat) :
    ∀ m, dotPlain A B i j m = ∑ k ∈ Finset.range m, A i k * B k j := by
  intro m
  induction m with
  | zero => simp [dotPlain]
  | succ k ih => rw [dotPlain, ih, Finset.sum_range_succ]

theorem dotK_eq_sum (A B : Mat) (i j m : Nat) :
    dotK A B i j m = ∑ k ∈ Finset.range m, A i k * B k j := by
  rw [dotK_eq_dotPlain, dotPlain_eq_sum]

/-- Splitting a dot product of doubled length into its two halves, with the
second half reindexed from zero. -/
theorem sum_range_split (f : Nat → Int) (h : Nat) :
    ∀ m, ∑ k ∈ Finset.range (h + m), f k =
      (∑ k ∈ Finset.range h, f k) + ∑ k ∈ Finset.range m, f (k + h) := by
  intro m
  induction m with
  | zero => simp
  | succ m ih =>
      rw [show h + (m + 1) = (h + m) + 1 by omega, Finset.sum_range_succ, ih,
        Finset.sum_range_succ, add_assoc]
      rw [Nat.add_comm h m]

/-! Characterisation of `addMatrix` and `subtractMatrix`. -/

theorem addRow_apply (A B : Mat) (i : Nat) (C : Mat) :
    ∀ m a b, addRow A B i C m a b =
      if a = i ∧ b < m then A i b + B i b else C a b := by
  intro m
  induction m with
  | zero => intro a b; simp [addRow]
  | succ m ih =>
      intro a b
      simp only [addRow, updC]
      rw [ih a b]
      by_cases h2 : a = i ∧ b = m
      · rcases h2 with ⟨rfl, rfl⟩
        simp
      · rw [if_neg h2]
        by_cases h3 : a = i ∧ b < m
        · rw [if_pos h3, if_pos ⟨h3.1, by omega⟩]
        · rw [if_neg h3, if_neg ?_]
          rintro ⟨rfl, hb⟩
          have hbm : b ≠ m := fun e => h2 ⟨rfl, e⟩
          exact h3 ⟨rfl, by omega⟩

theorem addRows_apply (A B C : Mat) (n : Nat) :
    ∀ m a b, addRows A B C n m a b =
      if a < m ∧ b < n then A a b + B a b else C a b := by
  intro m
  induction m with
  | zero => intro a b; simp [addRows]
  | succ m ih =>
      intro a b
      simp only [addRows]
      rw [addRow_apply, ih a b]
      by_cases h2 : a = m ∧ b < n
      · rcases h2 with ⟨rfl, hb⟩
        simp [hb]
      · rw [if_neg h2]
        by_cases h3 : a < m ∧ b < n
        · rw [if_pos h3, if_pos ⟨by omega, h3.2⟩]
        · rw [if_neg h3, if_neg ?_]
          rintro ⟨ha, hb⟩
          have ham : a ≠ m := fun e => h2 ⟨e, hb⟩
          exact h3 ⟨by omega, hb⟩

/-- Cellwise contract of `addMatrix`. -/
theorem addMatrix_apply (A B C : Mat) (n a b : Nat) :
    addMatrix A B C n a b =
      if a < n ∧ b < n then A a b + B a b else C a b :=
  addRows_apply A B C n n a b

theorem subRow_apply (A B : Mat) (i : Nat) (C : Mat) :
    ∀ m a b, subRow A B i C m a b =
      if a = i ∧ b < m then A i b - B i b else C a b := by
  intro m
  induction m with
  | zero => intro a b; simp [subRow]
  | succ m ih =>
      intro a b
      simp only [subRow, updC]
      rw [ih a b]
      by_cases h2 : a = i ∧ b = m
      · rcases h2 with ⟨rfl, rfl⟩
        simp
      · rw [if_neg h2]
        by_cases h3 : a = i ∧ b < m
        · rw [if_pos h3, if_pos ⟨h3.1, by omega⟩]
        · rw [if_neg h3, if_neg ?_]
          rintro ⟨rfl, hb⟩
          have hbm : b ≠ m := fun e => h2 ⟨rfl, e⟩
          exact h3 ⟨rfl, by omega⟩

theorem subRows_apply (A B C : Mat) (n : Nat) :
    ∀ m a b, subRows A B C n m a b =
      if a < m ∧ b < n then A a b - B a b else C a b := by
  intro m
  induction m with
  | zero => intro a b; simp [subRows]
  | succ m ih =>
      intro a b
      simp only [subRows]
      rw [subRow_apply, ih a b]
      by_cases h2 : a = m ∧ b < n
      · rcases h2 with ⟨rfl, hb⟩
        simp [hb]
      · rw [if_neg h2]
        by_cases h3 : a < m ∧ b < n
        · rw [if_pos h3, if_pos ⟨by omega, h3.2⟩]
        · rw [if_neg h3, if_neg ?_]
          rintro ⟨ha, hb⟩
          have ham : a ≠ m := fun e => h2 ⟨e, hb⟩
          exact h3 ⟨by omega, hb⟩

/-- Cellwise contract of `subtractMatrix`. -/
theorem subtractMatrix_apply (A B C : Mat) (n a b : Nat) :
    subtractMatrix A B C n a b =
      if a < n ∧ b < n then A a b - B a b else C a b :=
  subRows_apply A B C n n a b

/-! Characterisation of the combination step. -/

theorem combineRow_apply (P1 P2 P3 P4 P5 P6 P7 : Mat) (h i : Nat) (C : Mat)
    (hh : 1 ≤ h) :
    ∀ w, w ≤ h → ∀ a b, combineRow P1 P2 P3 P4 P5 P6 P7 h i C w a b =
      if a = i ∧ b < w then P5 i b + P4 i b - P2 i b + P6 i b
      else if a = i ∧ h ≤ b ∧ b < h + w then P1 i (b - h) + P2 i (b - h)
      else if a = i + h ∧ b < w then P3 i b + P4 i b
      else if a = i + h ∧ h ≤ b ∧ b < h + w then
        P5 i (b - h) + P1 i (b - h) - P3 i (b - h) - P7 i (b - h)
      else C a b := by
  intro w
  induction w with
  | zero =>
      intro _ a b
      simp only [combineRow]
      split_ifs <;> first | rfl | omega
  | succ m ih =>
      intro hm a b
      simp only [combineRow, updC]
      rw [ih (by omega) a b]
      by_cases hb2 : a = i + h ∧ b = m + h
      · rcases hb2 with ⟨rfl, rfl⟩
        rw [if_pos ⟨rfl, rfl⟩, if_neg (by omega), if_neg (by omega),
          if_neg (by omega), if_pos (by omega), Nat.add_sub_cancel]
      · rw [if_neg hb2]
        by_cases hb3 : a = i + h ∧ b = m
        · rcases hb3 with ⟨rfl, rfl⟩
          rw [if_pos ⟨rfl, rfl⟩, if_neg (by omega), if_neg (by omega),
            if_pos (by omega)]
        · rw [if_neg hb3]
          by_cases hb4 : a = i ∧ b = m + h
          · rcases hb4 with ⟨rfl, rfl⟩
            rw [if_pos ⟨rfl, rfl⟩, if_neg (by omega), if_pos (by omega),
              Nat.add_sub_cancel]
          · rw [if_neg hb4]
            by_cases hb5 : a = i ∧ b = m
            · rcases hb5 with ⟨rfl, rfl⟩
              rw [if_pos ⟨rfl, rfl⟩, if_pos (by omega)]
            · rw [if_neg hb5]
              split_ifs <;> first | rfl | omega

theorem combineAll_apply (P1 P2 P3 P4 P5 P6 P7 : Mat) (h : Nat) (C : Mat)
    (hh : 1 ≤ h) :
    ∀ m, m ≤ h → ∀ a b, combineAll P1 P2 P3 P4 P5 P6 P7 h C m a b =
      if a < m ∧ b < h then P5 a b + P4 a b - P2 a b + P6 a b
      else if a < m ∧ h ≤ b ∧ b < h + h then P1 a (b - h) + P2 a (b - h)
      else if h ≤ a ∧ a < h + m ∧ b < h then P3 (a - h) b + P4 (a - h) b
      else if h ≤ a ∧ a < h + m ∧ h ≤ b ∧ b < h + h then
        P5 (a - h) (b - h) + P1 (a - h) (b - h) - P3 (a - h) (b - h) - P7 (a - h) (b - h)
      else C a b := by
  intro m
  induction m with
  | zero =>
      intro _ a b
      simp only [combineAll]
      split_ifs <;> first | rfl | omega
  | succ m ih =>
      intro hm a b
      simp only [combineAll]
      rw [combineRow_apply P1 P2 P3 P4 P5 P6 P7 h m
        (combineAll P1 P2 P3 P4 P5 P6 P7 h C m) hh h (le_refl h) a b,
        ih (by omega) a b]
      by_cases ha1 : a = m
      · subst ha1
        by_cases hb : b < h
        · rw [if_pos ⟨rfl, hb⟩, if_pos (by omega)]
        · by_cases hb2 : h ≤ b ∧ b < h + h
          · rw [if_neg (by omega), if_pos ⟨rfl, hb2.1, hb2.2⟩,
              if_neg (by omega), if_pos (by omega)]
          · rw [if_neg (by omega), if_neg (by omega), if_neg (by omega),
              if_neg (by omega)]
            split_ifs <;> first | rfl | omega
      · by_cases ha2 : a = m + h
        · subst ha2
          by_cases hb : b < h
          · rw [if_neg (by omega), if_neg (by omega), if_pos ⟨rfl, hb⟩,
              if_neg (by omega), if_neg (by omega), if_pos (by omega),
              Nat.add_sub_cancel]
          · by_cases hb2 : h ≤ b ∧ b < h + h
            · rw [if_neg (by omega), if_neg (by omega), if_neg (by omega),
                if_pos ⟨rfl, hb2.1, hb2.2⟩, if_neg (by omega), if_neg (by omega),
                if_neg (by omega), if_pos (by omega), Nat.add_sub_cancel]
            · rw [if_neg (by omega), if_neg (by omega), if_neg (by omega),
                if_neg (by omega)]
              split_ifs <;> first | rfl | omega
        · rw [if_neg (by omega), if_neg (by omega), if_neg (by omega),
            if_neg (by omega)]
          split_ifs <;> first | rfl | omega

/-! Lemmas about the divide-and-conquer engine. -/

theorem St_C_mk (A B C : Mat) : (St.mk A B C).C = C := rfl

theorem dcAux_A (f : Nat) (s : St) (n : Nat) : (dcAux f s n).A = s.A := by
  cases f with
  | zero => rfl
  | succ f =>
      simp only [dcAux]
      split
      · exact bfI_A s n n
      · rfl

theorem dcAux_B (f : Nat) (s : St) (n : Nat) : (dcAux f s n).B = s.B := by
  cases f with
  | zero => rfl
  | succ f =>
      simp only [dcAux]
      split
      · exact bfI_B s n n
      · rfl

/-- Any fuel at least `n` produces the same result: the fuel argument is an
artefact of the embedding, not of the algorithm. -/
theorem dcAux_fuel (f1 : Nat) :
    ∀ f2 n s, n ≤ f1 → n ≤ f2 → dcAux f1 s n = dcAux f2 s n := by
  induction f1 with
  | zero =>
      intro f2 n s h1 h2
      have hn : n = 0 := by omega
      subst hn
      cases f2 with
      | zero => rfl
      | succ g => simp [dcAux, matrixMultiplyBruteForce, bfI]
  | succ g1 ih =>
      intro f2 n s h1 h2
      cases f2 with
      | zero =>
          have hn : n = 0 := by omega
          subst hn
          simp [dcAux, matrixMultiplyBruteForce, bfI]
      | succ g2 =>
          by_cases hn : n ≤ 2
          · simp only [dcAux]
            rw [if_pos hn, if_pos hn]
          · have key : ∀ t : St, dcAux g1 t (n / 2) = dcAux g2 t (n / 2) :=
              fun t => ih g2 (n / 2) t (by omega) (by omega)
            simp only [dcAux]
            rw [if_neg hn, if_neg hn]
            simp only [key]

/-- Main correctness of the recursive engine on sizes that halve to the base
case: inside the extent, the destination holds the true matrix product. -/
theorem dcAux_C_sum (f : Nat) :
    ∀ n, n ≤ f → HalvesToBase n → ∀ s i j, i < n → j < n →
      (dcAux f s n).C i j = ∑ k ∈ Finset.range n, s.A i k * s.B k j := by
  induction f with
  | zero => intro n hf _ s i j hi hj; omega
  | succ f ih =>
      intro n hf hred s i j hi hj
      by_cases hn : n ≤ 2
      · simp only [dcAux]
        rw [if_pos hn, bruteForce_C, if_pos ⟨hi, hj⟩, dotK_eq_sum]
      · have heven : n % 2 = 0 := by
          cases hred with
          | base _ h => omega
          | step _ he _ => exact he
        have hhb : HalvesToBase (n / 2) := by
          cases hred with
          | base _ h => omega
          | step _ _ hh => exact hh
        have hh1 : 1 ≤ n / 2 := by omega
        have hstep : ∀ (t : St) a b, a < n / 2 → b < n / 2 →
            (dcAux f t (n / 2)).C a b =
              ∑ k ∈ Finset.range (n / 2), t.A a k * t.B k b :=
          fun t a b ha hb => ih (n / 2) (by omega) hhb t a b ha hb
        have hP1 : ∀ a b, a < n / 2 → b < n / 2 →
            (dcAux f ⟨quadTL s.A (n / 2),
              subtractMatrix (quadTR s.B (n / 2)) (quadBR s.B (n / 2)) zeroM (n / 2),
              zeroM⟩ (n / 2)).C a b =
            ∑ k ∈ Finset.range (n / 2),
              s.A a k * (s.B k (b + n / 2) - s.B (k + n / 2) (b + n / 2)) := by
          intro a b ha hb
          rw [hstep _ a b ha hb]
          refine Finset.sum_congr rfl fun k hk => ?_
          have hk' : k < n / 2 := Finset.mem_range.mp hk
          simp [quadTL, quadTR, quadBR, subtractMatrix_apply, ha, hb, hk']
        have hP2 : ∀ a b, a < n / 2 → b < n / 2 →
            (dcAux f ⟨addMatrix (quadTL s.A (n / 2)) (quadTR s.A (n / 2)) zeroM (n / 2),
              quadBR s.B (n / 2), zeroM⟩ (n / 2)).C a b =
            ∑ k ∈ Finset.range (n / 2),
              (s.A a k + s.A a (k + n / 2)) * s.B (k + n / 2) (b + n / 2) := by
          intro a b ha hb
          rw [hstep _ a b ha hb]
          refine Finset.sum_congr rfl fun k hk => ?_
          have hk' : k < n / 2 := Finset.mem_range.mp hk
          simp [quadTL, quadTR, quadBR, addMatrix_apply, ha, hb, hk']
        have hP3 : ∀ a b, a < n / 2 → b < n / 2 →
            (dcAux f ⟨addMatrix (quadBL s.A (n / 2)) (quadBR s.A (n / 2)) zeroM (n / 2),
              quadTL s.B (n / 2), zeroM⟩ (n / 2)).C a b =
            ∑ k ∈ Finset.range (n / 2),
              (s.A (a + n / 2) k + s.A (a + n / 2) (k + n / 2)) * s.B k b := by
          intro a b ha hb
          rw [hstep _ a b ha hb]
          refine Finset.sum_congr rfl fun k hk => ?_
          have hk' : k < n / 2 := Finset.mem_range.mp hk
          simp [quadTL, quadBL, quadBR, addMatrix_apply, ha, hb, hk']
        have hP4 : ∀ a b, a < n / 2 → b < n / 2 →
            (dcAux f ⟨quadBR s.A (n / 2),
              subtractMatrix (quadBL s.B (n / 2)) (quadTL s.B (n / 2)) zeroM (n / 2),
              zeroM⟩ (n / 2)).C a b =
            ∑ k ∈ Finset.range (n / 2),
              s.A (a + n / 2) (k + n / 2) * (s.B (k + n / 2) b - s.B k b) := by
          intro a b ha hb
          rw [hstep _ a b ha hb]
          refine Finset.sum_congr rfl fun k hk => ?_
          have hk' : k < n / 2 := Finset.mem_range.mp hk
          simp [quadTL, quadBL, quadBR, subtractMatrix_apply, ha, hb, hk']
        have hP5 : ∀ a b, a < n / 2 → b < n / 2 →
            (dcAux f ⟨addMatrix (quadTL s.A (n / 2)) (quadBR s.A (n / 2)) zeroM (n / 2),
              addMatrix (quadTL s.B (n / 2)) (quadBR s.B (n / 2)) zeroM (n / 2),
              zeroM⟩ (n / 2)).C a b =
            ∑ k ∈ Finset.range (n / 2),
              (s.A a k + s.A (a + n / 2) (k + n / 2)) *
                (s.B k b + s.B (k + n / 2) (b + n / 2)) := by
          intro a b ha hb
          rw [hstep _ a b ha hb]
          refine Finset.sum_congr rfl fun k hk => ?_
          have hk' : k < n / 2 := Finset.mem_range.mp hk
          simp [quadTL, quadBR, addMatrix_apply, ha, hb, hk']
        have hP6 : ∀ a b, a < n / 2 → b < n / 2 →
            (dcAux f ⟨subtractMatrix (quadTR s.A (n / 2)) (quadBR s.A (n / 2)) zeroM (n / 2),
              addMatrix (quadBL s.B (n / 2)) (quadBR s.B (n / 2)) zeroM (n / 2),
              zeroM⟩ (n / 2)).C a b =
            ∑ k ∈ Finset.range (n / 2),
              (s.A a (k + n / 2) - s.A (a + n / 2) (k + n / 2)) *
                (s.B (k + n / 2) b + s.B (k + n / 2) (b + n / 2)) := by
          intro a b ha hb
          rw [hstep _ a b ha hb]
          refine Finset.sum_congr rfl fun k hk => ?_
          have hk' : k < n / 2 := Finset.mem_range.mp hk
          simp [quadTR, quadBL, quadBR, addMatrix_apply, subtractMatrix_apply, ha, hb, hk']
        have hP7 : ∀ a b, a < n / 2 → b < n / 2 →
            (dcAux f ⟨subtractMatrix (quadTL s.A (n / 2)) (quadBL s.A (n / 2)) zeroM (n / 2),
              addMatrix (quadTL s.B (n / 2)) (quadTR s.B (n / 2)) zeroM (n / 2),
              zeroM⟩ (n / 2)).C a b =
            ∑ k ∈ Finset.range (n / 2),
              (s.A a k - s.A (a + n / 2) k) * (s.B k b + s.B k (b + n / 2)) := by
          intro a b ha hb
          rw [hstep _ a b ha hb]
          refine Finset.sum_congr rfl fun k hk => ?_
          have hk' : k < n / 2 := Finset.mem_range.mp hk
          simp [quadTL, quadTR, quadBL, addMatrix_apply, subtractMatrix_apply, ha, hb, hk']
        simp only [dcAux]
        rw [if_neg hn, St_C_mk]
        rw [combineAll_apply _ _ _ _ _ _ _ _ _ hh1 (n / 2) (le_refl (n / 2)) i j]
        by_cases hi2 : i < n / 2
        · by_cases hj2 : j < n / 2
          · rw [if_pos ⟨hi2, hj2⟩, hP5 i j hi2 hj2, hP4 i j hi2 hj2,
              hP2 i j hi2 hj2, hP6 i j hi2 hj2]
            rw [show Finset.range n = Finset.range (n / 2 + n / 2) from by
              rw [show n / 2 + n / 2 = n from by omega], sum_range_split]
            rw [← Finset.sum_add_distrib, ← Finset.sum_sub_distrib,
              ← Finset.sum_add_distrib, ← Finset.sum_add_distrib]
            refine Finset.sum_congr rfl fun k hk => ?_
            ring
          · rw [if_neg (by omega), if_pos (by omega : i < n / 2 ∧ n / 2 ≤ j ∧ j < n / 2 + n / 2)]
            rw [hP1 i (j - n / 2) hi2 (by omega), hP2 i (j - n / 2) hi2 (by omega)]
            rw [show j - n / 2 + n / 2 = j from by omega]
            rw [show Finset.range n = Finset.range (n / 2 + n / 2) from by
              rw [show n / 2 + n / 2 = n from by omega], sum_range_split]
            rw [← Finset.sum_add_distrib, ← Finset.sum_add_distrib]
            refine Finset.sum_congr rfl fun k hk => ?_
            ring
        · by_cases hj2 : j < n / 2
          · rw [if_neg (by omega), if_neg (by omega),
              if_pos (by omega : n / 2 ≤ i ∧ i < n / 2 + n / 2 ∧ j < n / 2)]
            rw [hP3 (i - n / 2) j (by omega) hj2, hP4 (i - n / 2) j (by omega) hj2]
            rw [show i - n / 2 + n / 2 = i from by omega]
            rw [show Finset.range n = Finset.range (n / 2 + n / 2) from by
              rw [show n / 2 + n / 2 = n from by omega], sum_range_split]
            rw [← Finset.sum_add_distrib, ← Finset.sum_add_distrib]
            refine Finset.sum_congr rfl fun k hk => ?_
            ring
          · rw [if_neg (by omega), if_neg (by omega), if_neg (by omega),
              if_pos (by omega :
                n / 2 ≤ i ∧ i < n / 2 + n / 2 ∧ n / 2 ≤ j ∧ j < n / 2 + n / 2)]
            rw [hP5 (i - n / 2) (j - n / 2) (by omega) (by omega),
              hP1 (i - n / 2) (j - n / 2) (by omega) (by omega),
              hP3 (i - n / 2) (j - n / 2) (by omega) (by omega),
              hP7 (i - n / 2) (j - n / 2) (by omega) (by omega)]
            rw [show i - n / 2 + n / 2 = i from by omega,
              show j - n / 2 + n / 2 = j from by omega]
            rw [show Finset.range n = Finset.range (n / 2 + n / 2) from by
              rw [show n / 2 + n / 2 = n from by omega], sum_range_split]
            rw [← Finset.sum_add_distrib, ← Finset.sum_sub_distrib,
              ← Finset.sum_sub_distrib, ← Finset.sum_add_distrib]
            refine Finset.sum_congr rfl fun k hk => ?_
            ring

/-! Agreement of the engine with the algorithm as the spec words it. -/

/-- The guarded dot product only reads row `i` of `A` and column `j` of `B`
below the iteration bound. -/
theorem dotK_congr (A B A' B' : Mat) (i j : Nat) :
    ∀ m, (∀ k, k < m → A i k = A' i k) → (∀ k, k < m → B k j = B' k j) →
      dotK A B i j m = dotK A' B' i j m := by
  intro m
  induction m with
  | zero => intro _ _; rfl
  | succ k ih =>
      intro hA hB
      simp only [dotK]
      rw [ih (fun t ht => hA t (by omega)) (fun t ht => hB t (by omega)),
        hA k (by omega), hB k (by omega)]

/-- The brute force only reads entries of `A` and `B` inside the extent. -/
theorem bruteForce_congr (A B C A' B' : Mat) (n : Nat)
    (hA : ∀ p q, p < n → q < n → A p q = A' p q)
    (hB : ∀ p q, p < n → q < n → B p q = B' p q) :
    (matrixMultiplyBruteForce ⟨A, B, C⟩ n).C =
      (matrixMultiplyBruteForce ⟨A', B', C⟩ n).C := by
  funext a b
  rw [bruteForce_C, bruteForce_C]
  by_cases hab : a < n ∧ b < n
  · rw [if_pos hab, if_pos hab]
    exact dotK_congr A B A' B' a b n
      (fun k hk => hA a k hab.1 hk) (fun k hk => hB k b hk hab.2)
  · rw [if_neg hab, if_neg hab]

/-- The divide-and-conquer engine computes, cell for cell, the Strassen
scheme exactly as claim C2 states it; the inputs may be replaced by any
matrices agreeing inside the extent. -/
theorem dcAux_eq_spec (f : Nat) :
    ∀ n (A B C A' B' : Mat),
      (∀ p q, p < n → q < n → A p q = A' p q) →
      (∀ p q, p < n → q < n → B p q = B' p q) →
      (dcAux f ⟨A, B, C⟩ n).C = strassenSpecAux f A' B' C n := by
  induction f with
  | zero => intro n A B C A' B' _ _; rfl
  | succ f ih =>
      intro n A B C A' B' hA hB
      by_cases hn : n ≤ 2
      · simp only [dcAux, strassenSpecAux]
        rw [if_pos hn, if_pos hn]
        exact bruteForce_congr A B C A' B' n hA hB
      · have hh1 : 1 ≤ n / 2 := by omega
        have e1 : (dcAux f ⟨quadTL A (n / 2),
              subtractMatrix (quadTR B (n / 2)) (quadBR B (n / 2)) zeroM (n / 2),
              zeroM⟩ (n / 2)).C =
            strassenSpecAux f (fun p q => A' p q)
              (fun p q => B' p (q + n / 2) - B' (p + n / 2) (q + n / 2))
              zeroM (n / 2) := by
          apply ih
          · intro p q hp hq
            simp [quadTL, hp, hq]
            exact hA p q (by omega) (by omega)
          · intro p q hp hq
            simp [subtractMatrix_apply, quadTR, quadBR, hp, hq]
            rw [hB p (q + n / 2) (by omega) (by omega),
              hB (p + n / 2) (q + n / 2) (by omega) (by omega)]
        have e2 : (dcAux f ⟨addMatrix (quadTL A (n / 2)) (quadTR A (n / 2)) zeroM (n / 2),
              quadBR B (n / 2), zeroM⟩ (n / 2)).C =
            strassenSpecAux f (fun p q => A' p q + A' p (q + n / 2))
              (fun p q => B' (p + n / 2) (q + n / 2)) zeroM (n / 2) := by
          apply ih
          · intro p q hp hq
            simp [addMatrix_apply, quadTL, quadTR, hp, hq]
            rw [hA p q (by omega) (by omega), hA p (q + n / 2) (by omega) (by omega)]
          · intro p q hp hq
            simp [quadBR, hp, hq]
            exact hB (p + n / 2) (q + n / 2) (by omega) (by omega)
        have e3 : (dcAux f ⟨addMatrix (quadBL A (n / 2)) (quadBR A (n / 2)) zeroM (n / 2),
              quadTL B (n / 2), zeroM⟩ (n / 2)).C =
            strassenSpecAux f (fun p q => A' (p + n / 2) q + A' (p + n / 2) (q + n / 2))
              (fun p q => B' p q) zeroM (n / 2) := by
          apply ih
          · intro p q hp hq
            simp [addMatrix_apply, quadBL, quadBR, hp, hq]
            rw [hA (p + n / 2) q (by omega) (by omega),
              hA (p + n / 2) (q + n / 2) (by omega) (by omega)]
          · intro p q hp hq
            simp [quadTL, hp, hq]
            exact hB p q (by omega) (by omega)
        have e4 : (dcAux f ⟨quadBR A (n / 2),
              subtractMatrix (quadBL B (n / 2)) (quadTL B (n / 2)) zeroM (n / 2),
              zeroM⟩ (n / 2)).C =
            strassenSpecAux f (fun p q => A' (p + n / 2) (q + n / 2))
              (fun p q => B' (p + n / 2) q - B' p q) zeroM (n / 2) := by
          apply ih
          · intro p q hp hq
            simp [quadBR, hp, hq]
            exact hA (p + n / 2) (q + n / 2) (by omega) (by omega)
          · intro p q hp hq
            simp [subtractMatrix_apply, quadBL, quadTL, hp, hq]
            rw [hB (p + n / 2) q (by omega) (by omega), hB p q (by omega) (by omega)]
        have e5 : (dcAux f ⟨addMatrix (quadTL A (n / 2)) (quadBR A (n / 2)) zeroM (n / 2),
              addMatrix (quadTL B (n / 2)) (quadBR B (n / 2)) zeroM (n / 2),
              zeroM⟩ (n / 2)).C =
            strassenSpecAux f (fun p q => A' p q + A' (p + n / 2) (q + n / 2))
              (fun p q => B' p q + B' (p + n / 2) (q + n / 2)) zeroM (n / 2) := by
          apply ih
          · intro p q hp hq
            simp [addMatrix_apply, quadTL, quadBR, hp, hq]
            rw [hA p q (by omega) (by omega),
              hA (p + n / 2) (q + n / 2) (by omega) (by omega)]
          · intro p q hp hq
            simp [addMatrix_apply, quadTL, quadBR, hp, hq]
            rw [hB p q (by omega) (by omega),
              hB (p + n / 2) (q + n / 2) (by omega) (by omega)]
        have e6 : (dcAux f ⟨subtractMatrix (quadTR A (n / 2)) (quadBR A (n / 2)) zeroM (n / 2),
              addMatrix (quadBL B (n / 2)) (quadBR B (n / 2)) zeroM (n / 2),
              zeroM⟩ (n / 2)).C =
            strassenSpecAux f (fun p q => A' p (q + n / 2) - A' (p + n / 2) (q + n / 2))
              (fun p q => B' (p + n / 2) q + B' (p + n / 2) (q + n / 2)) zeroM (n / 2) := by
          apply ih
          · intro p q hp hq
            simp [subtractMatrix_apply, quadTR, quadBR, hp, hq]
            rw [hA p (q + n / 2) (by omega) (by omega),
              hA (p + n / 2) (q + n / 2) (by omega) (by omega)]
          · intro p q hp hq
            simp [addMatrix_apply, quadBL, quadBR, hp, hq]
            rw [hB (p + n / 2) q (by omega) (by omega),
              hB (p + n / 2) (q + n / 2) (by omega) (by omega)]
        have e7 : (dcAux f ⟨subtractMatrix (quadTL A (n / 2)) (quadBL A (n / 2)) zeroM (n / 2),
              addMatrix (quadTL B (n / 2)) (quadTR B (n / 2)) zeroM (n / 2),
              zeroM⟩ (n / 2)).C =
            strassenSpecAux f (fun p q => A' p q - A' (p + n / 2) q)
              (fun p q => B' p q + B' p (q + n / 2)) zeroM (n / 2) := by
          apply ih
          · intro p q hp hq
            simp [subtractMatrix_apply, quadTL, quadBL, hp, hq]
            rw [hA p q (by omega) (by omega), hA (p + n / 2) q (by omega) (by omega)]
          · intro p q hp hq
            simp [addMatrix_apply, quadTL, quadTR, hp, hq]
            rw [hB p q (by omega) (by omega), hB p (q + n / 2) (by omega) (by omega)]
        simp only [dcAux, strassenSpecAux]
        rw [if_neg hn, if_neg hn, St_C_mk]
        funext a b
        rw [combineAll_apply _ _ _ _ _ _ _ _ _ hh1 (n / 2) (le_refl (n / 2)) a b]
        rw [e1, e2, e3, e4, e5, e6, e7]

/-! The last row and column are never written for odd sizes above the base
case. -/

theorem dcAux_odd_preserve (f : Nat) (s : St) (n : Nat)
    (hodd : n % 2 = 1) (h2 : 2 < n) :
    ∀ b, (dcAux f s n).C (n - 1) b = s.C (n - 1) b ∧
      (dcAux f s n).C b (n - 1) = s.C b (n - 1) := by
  cases f with
  | zero => intro b; exact ⟨rfl, rfl⟩
  | succ f =>
      intro b
      simp only [dcAux]
      rw [if_neg (by omega), St_C_mk]
      constructor
      · rw [combineAll_apply _ _ _ _ _ _ _ _ _ (by omega) (n / 2)
          (le_refl (n / 2)) (n - 1) b]
        rw [if_neg (by omega), if_neg (by omega), if_neg (by omega),
          if_neg (by omega)]
      · rw [combineAll_apply _ _ _ _ _ _ _ _ _ (by omega) (n / 2)
          (le_refl (n / 2)) b (n - 1)]
        rw [if_neg (by omega), if_neg (by omega), if_neg (by omega),
          if_neg (by omega)]

/-! Factorial lemmas. -/

theorem fbfGo_eq : ∀ m, fbfGo m = Nat.factorial m % M64 := by
  intro m
  induction m with
  | zero => decide
  | succ m ih =>
      cases m with
      | zero => decide
      | succ k =>
          rw [fbfGo]
          rw [if_neg (by omega), ih, Nat.mod_mul_mod, Nat.mul_comm,
            ← Nat.factorial_succ]

theorem fdcGo_val : ∀ m memo, memoInv memo →
    (fdcGo m memo).1 = Nat.factorial m % M64 := by
  intro m
  induction m with
  | zero =>
      intro memo _
      show (1 : Nat) = Nat.factorial 0 % M64
      decide
  | succ m ih =>
      intro memo hinv
      cases m with
      | zero =>
          show (1 : Nat) = Nat.factorial 1 % M64
          decide
      | succ k =>
          simp only [fdcGo]
          by_cases hmem : memo (k + 2) ≠ 0
          · rw [if_pos hmem]
            rcases hinv (k + 2) with h | h
            · exact absurd h hmem
            · exact h
          · rw [if_neg hmem]
            show (k + 2) * (fdcGo (k + 1) memo).1 % M64 = _
            rw [ih memo hinv]
            calc (k + 2) * (Nat.factorial (k + 1) % M64) % M64
                = (k + 2) * Nat.factorial (k + 1) % M64 :=
                  Nat.ModEq.mul_left (k + 2) (Nat.mod_modEq _ _)
              _ = Nat.factorial (k + 2) % M64 := by rw [← Nat.factorial_succ]

theorem fdcGo_inv : ∀ m memo, memoInv memo → memoInv (fdcGo m memo).2 := by
  intro m
  induction m with
  | zero => intro memo hinv; exact hinv
  | succ m ih =>
      intro memo hinv
      cases m with
      | zero => exact hinv
      | succ k =>
          simp only [fdcGo]
          by_cases hmem : memo (k + 2) ≠ 0
          · rw [if_pos hmem]; exact hinv
          · rw [if_neg hmem]
            intro a
            dsimp only
            by_cases ha : a = k + 2
            · right
              rw [if_pos ha, fdcGo_val (k + 1) memo hinv, ha]
              calc (k + 2) * (Nat.factorial (k + 1) % M64) % M64
                  = (k + 2) * Nat.factorial (k + 1) % M64 :=
                    Nat.ModEq.mul_left (k + 2) (Nat.mod_modEq _ _)
                _ = Nat.factorial (k + 2) % M64 := by rw [← Nat.factorial_succ]
            · rcases ih memo hinv a with h | h
              · left
                rw [if_neg ha]
                exact h
              · right
                rw [if_neg ha]
                exact h

/-- Every reachable state of the static cache satisfies the invariant. -/
theorem reachableMemo_inv : ∀ memo, ReachableMemo memo → memoInv memo := by
  intro memo h
  induction h with
  | init => intro k; left; rfl
  | step memo n _ _ ih =>
      simp only [factorialDivideConquer]
      split
      · exact ih
      · exact fdcGo_inv _ memo ih

theorem factorialBruteForce_eq (n : Int) :
    factorialBruteForce n = Nat.factorial n.toNat % M64 := by
  simp only [factorialBruteForce]
  split
  · rename_i h
    have h01 : n.toNat = 0 ∨ n.toNat = 1 := by omega
    rcases h01 with h0 | h0 <;> rw [h0] <;> decide
  · exact fbfGo_eq _

theorem factorialDivideConquer_val (memo : Memo) (hinv : memoInv memo) (n : Int) :
    (factorialDivideConquer n memo).1 = factorialBruteForce n := by
  simp only [factorialDivideConquer, factorialBruteForce]
  split
  · rfl
  · rw [fdcGo_val n.toNat memo hinv, fbfGo_eq]

/-! Prime-testing lemmas. -/

/-- The brute-force trial loop succeeds exactly when no tested candidate
divides `m`; the candidates are `i, i + 2, i + 4, ...` strictly below `m`. -/
theorem bfpLoop_iff (m : Nat) :
    ∀ c i, bfpLoop m c i = true ↔
      ∀ t, t < c → i + 2 * t < m → m % (i + 2 * t) ≠ 0 := by
  intro c
  induction c with
  | zero => intro i; simp [bfpLoop]
  | succ c ih =>
      intro i
      simp only [bfpLoop]
      by_cases him : i < m
      · rw [if_pos him]
        by_cases hmod : m % i = 0
        · rw [if_pos hmod]
          constructor
          · intro h; simp at h
          · intro h
            exfalso
            exact (h 0 (by omega) (by simpa using him)) (by simpa using hmod)
        · rw [if_neg hmod, ih (i + 2)]
          constructor
          · intro H t ht hlt
            cases t with
            | zero => simpa using hmod
            | succ u =>
                have he : i + 2 * (u + 1) = i + 2 + 2 * u := by ring
                rw [he] at hlt ⊢
                exact H u (by omega) hlt
          · intro H t ht hlt
            have he : i + 2 + 2 * t = i + 2 * (t + 1) := by ring
            rw [he] at hlt ⊢
            exact H (t + 1) (by omega) hlt
      · rw [if_neg him]
        constructor
        · intro _ t ht hlt
          omega
        · intro _
          rfl

/-- The 6k ± 1 trial loop succeeds exactly when no tested candidate pair
divides `m`; candidates are `i, i + 6, ...` up to the bound `s`, each tested
together with its `+ 2` companion. -/
theorem dcpLoop_iff (m s : Nat) :
    ∀ c i, dcpLoop m s c i = true ↔
      ∀ t, t < c → i + 6 * t ≤ s →
        m % (i + 6 * t) ≠ 0 ∧ m % (i + 6 * t + 2) ≠ 0 := by
  intro c
  induction c with
  | zero => intro i; simp [dcpLoop]
  | succ c ih =>
      intro i
      simp only [dcpLoop]
      by_cases his : i ≤ s
      · rw [if_pos his]
        by_cases hmod : m % i = 0 ∨ m % (i + 2) = 0
        · rw [if_pos hmod]
          constructor
          · intro h; simp at h
          · intro h
            exfalso
            have h0 := h 0 (by omega) (by simpa using his)
            rcases hmod with hm | hm
            · exact h0.1 (by simpa using hm)
            · exact h0.2 (by simpa using hm)
        · rw [if_neg hmod, ih (i + 6)]
          push_neg at hmod
          constructor
          · intro H t ht hle
            cases t with
            | zero =>
                constructor
                · simpa using hmod.1
                · simpa using hmod.2
            | succ u =>
                have he : i + 6 * (u + 1) = i + 6 + 6 * u := by ring
                rw [he] at hle ⊢
                exact H u (by omega) hle
          · intro H t ht hle
            have he : i + 6 + 6 * t = i + 6 * (t + 1) := by ring
            rw [he] at hle ⊢
            exact H (t + 1) (by omega) hle
      · rw [if_neg his]
        constructor
        · intro _ t ht hle
          omega
        · intro _
          rfl

/-- `isPrimeBruteForce` decides primality of the value, for every `int`
argument; arguments at most `1` (including all negatives) are rejected. -/
theorem isPrimeBruteForce_iff (n : Int) :
    isPrimeBruteForce n = true ↔ 1 < n ∧ Nat.Prime n.toNat := by
  simp only [isPrimeBruteForce]
  by_cases h1 : n ≤ 1
  · rw [if_pos h1]
    constructor
    · intro h; simp at h
    · rintro ⟨hlt, _⟩; omega
  · rw [if_neg h1]
    by_cases h3 : n ≤ 3
    · rw [if_pos h3]
      have h23 : n = 2 ∨ n = 3 := by omega
      constructor
      · intro _
        rcases h23 with rfl | rfl <;> exact ⟨by omega, by decide⟩
      · intro _; rfl
    · rw [if_neg h3]
      by_cases h23 : n % 2 = 0 ∨ n % 3 = 0
      · rw [if_pos h23]
        constructor
        · intro h; simp at h
        · rintro ⟨hlt, hp⟩
          exfalso
          have hm4 : 4 ≤ n.toNat := by omega
          rcases h23 with h2 | h2
          · have hdvd : (2 : Nat) ∣ n.toNat := by omega
            rcases hp.eq_one_or_self_of_dvd 2 hdvd with h | h <;> omega
          · have hdvd : (3 : Nat) ∣ n.toNat := by omega
            rcases hp.eq_one_or_self_of_dvd 3 hdvd with h | h <;> omega
      · rw [if_neg h23]
        push_neg at h23
        have hm5 : 5 ≤ n.toNat := by omega
        have hm2 : n.toNat % 2 ≠ 0 := by omega
        have hm3 : n.toNat % 3 ≠ 0 := by omega
        rw [bfpLoop_iff]
        constructor
        · intro H
          refine ⟨by omega, ?_⟩
          by_contra hnp
          obtain ⟨d, hdvd, hd2, hdm⟩ :=
            Nat.exists_dvd_of_not_prime2 (by omega) hnp
          have hd2' : d % 2 = 1 := by
            rcases Nat.mod_two_eq_zero_or_one d with h | h
            · exfalso
              have : (2 : Nat) ∣ n.toNat :=
                dvd_trans (Nat.dvd_of_mod_eq_zero h) hdvd
              omega
            · exact h
          have hd3 : d % 3 ≠ 0 := by
            intro h
            have : (3 : Nat) ∣ n.toNat :=
              dvd_trans (Nat.dvd_of_mod_eq_zero h) hdvd
            omega
          have hd5 : 5 ≤ d := by omega
          obtain ⟨t, rfl⟩ : ∃ t, d = 5 + 2 * t := ⟨(d - 5) / 2, by omega⟩
          exact H t (by omega) (by omega)
            (Nat.dvd_iff_mod_eq_zero.mp hdvd)
        · rintro ⟨hn1, hp⟩ t ht hlt hmod
          have hdvd : (5 + 2 * t) ∣ n.toNat := Nat.dvd_of_mod_eq_zero hmod
          rcases hp.eq_one_or_self_of_dvd _ hdvd with h | h <;> omega

/-- `isPrimeDivideConquer` decides primality of the value, for every `int`
argument. -/
theorem isPrimeDivideConquer_iff (n : Int) :
    isPrimeDivideConquer n = true ↔ 1 < n ∧ Nat.Prime n.toNat := by
  simp only [isPrimeDivideConquer]
  by_cases h1 : n ≤ 1
  · rw [if_pos h1]
    constructor
    · intro h; simp at h
    · rintro ⟨hlt, _⟩; omega
  · rw [if_neg h1]
    by_cases h3 : n ≤ 3
    · rw [if_pos h3]
      have h23 : n = 2 ∨ n = 3 := by omega
      constructor
      · intro _
        rcases h23 with rfl | rfl <;> exact ⟨by omega, by decide⟩
      · intro _; rfl
    · rw [if_neg h3]
      by_cases h23 : n % 2 = 0 ∨ n % 3 = 0
      · rw [if_pos h23]
        constructor
        · intro h; simp at h
        · rintro ⟨hlt, hp⟩
          exfalso
          have hm4 : 4 ≤ n.toNat := by omega
          rcases h23 with h2 | h2
          · have hdvd : (2 : Nat) ∣ n.toNat := by omega
            rcases hp.eq_one_or_self_of_dvd 2 hdvd with h | h <;> omega
          · have hdvd : (3 : Nat) ∣ n.toNat := by omega
            rcases hp.eq_one_or_self_of_dvd 3 hdvd with h | h <;> omega
      · rw [if_neg h23]
        push_neg at h23
        have hm5 : 5 ≤ n.toNat := by omega
        have hm2 : n.toNat % 2 ≠ 0 := by omega
        have hm3 : n.toNat % 3 ≠ 0 := by omega
        rw [dcpLoop_iff]
        constructor
        · intro H
          refine ⟨by omega, ?_⟩
          by_contra hnp
          have hp1 : n.toNat ≠ 1 := by omega
          have hpp : (Nat.minFac n.toNat).Prime := Nat.minFac_prime hp1
          have hpd : Nat.minFac n.toNat ∣ n.toNat := Nat.minFac_dvd _
          have hsq : Nat.minFac n.toNat * Nat.minFac n.toNat ≤ n.toNat := by
            have h := Nat.minFac_sq_le_self (by omega) hnp
            rwa [pow_two] at h
          have hps : Nat.minFac n.toNat ≤ Nat.sqrt n.toNat :=
            Nat.le_sqrt.mpr hsq
          have hpm : Nat.minFac n.toNat ≤ n.toNat := Nat.minFac_le (by omega)
          have hp2 : Nat.minFac n.toNat % 2 = 1 := by
            rcases Nat.mod_two_eq_zero_or_one (Nat.minFac n.toNat) with h | h
            · exfalso
              rcases hpp.eq_one_or_self_of_dvd 2 (Nat.dvd_of_mod_eq_zero h)
                with h' | h'
              · omega
              · have : (2 : Nat) ∣ n.toNat := by
                  rw [h']
                  exact hpd
                omega
            · exact h
          have hp3 : Nat.minFac n.toNat % 3 ≠ 0 := by
            intro h
            rcases hpp.eq_one_or_self_of_dvd 3 (Nat.dvd_of_mod_eq_zero h)
              with h' | h'
            · omega
            · have : (3 : Nat) ∣ n.toNat := by
                rw [h']
                exact hpd
              omega
          have hge2 : 2 ≤ Nat.minFac n.toNat := hpp.two_le
          have h6 : Nat.minFac n.toNat % 6 = 1 ∨ Nat.minFac n.toNat % 6 = 5 := by
            omega
          rcases h6 with h6 | h6
          · obtain ⟨t, hteq⟩ : ∃ t, Nat.minFac n.toNat = 7 + 6 * t :=
              ⟨(Nat.minFac n.toNat - 7) / 6, by omega⟩
            refine (H t (by omega) (by omega)).2 ?_
            rw [show 5 + 6 * t + 2 = 7 + 6 * t from by ring, ← hteq]
            exact Nat.dvd_iff_mod_eq_zero.mp hpd
          · obtain ⟨t, hteq⟩ : ∃ t, Nat.minFac n.toNat = 5 + 6 * t :=
              ⟨(Nat.minFac n.toNat - 5) / 6, by omega⟩
            refine (H t (by omega) (by omega)).1 ?_
            rw [← hteq]
            exact Nat.dvd_iff_mod_eq_zero.mp hpd
        · rintro ⟨hn1, hp⟩ t ht hle
          have hs2 : Nat.sqrt n.toNat + 2 < n.toNat := by
            by_contra hcon
            push_neg at hcon
            have hsq := Nat.sqrt_le n.toNat
            nlinarith
          constructor
          · intro hmod
            have hdvd : (5 + 6 * t) ∣ n.toNat := Nat.dvd_of_mod_eq_zero hmod
            rcases hp.eq_one_or_self_of_dvd _ hdvd with h | h <;> omega
          · intro hmod
            have hdvd : (5 + 6 * t + 2) ∣ n.toNat := Nat.dvd_of_mod_eq_zero hmod
            rcases hp.eq_one_or_self_of_dvd _ hdvd with h | h <;> omega

/-- The two primality tests agree on every `int` argument. -/
theorem isPrime_eq (n : Int) : isPrimeBruteForce n = isPrimeDivideConquer n := by
  by_cases hp : 1 < n ∧ Nat.Prime n.toNat
  · rw [(isPrimeBruteForce_iff n).mpr hp, (isPrimeDivideConquer_iff n).mpr hp]
  · have h1 : isPrimeBruteForce n = false :=
      Bool.not_eq_true _ |>.mp fun h => hp ((isPrimeBruteForce_iff n).mp h)
    have h2 : isPrimeDivideConquer n = false :=
      Bool.not_eq_true _ |>.mp fun h => hp ((isPrimeDivideConquer_iff n).mp h)
    rw [h1, h2]

theorem cpGo_eq : ∀ m, cpbGo m = cpdGo m := by
  intro m
  induction m with
  | zero => rfl
  | succ m ih =>
      cases m with
      | zero => rfl
      | succ k =>
          simp only [cpbGo, cpdGo]
          rw [isPrime_eq]
          rw [show cpbGo (k + 1) = cpdGo (k + 1) from ih]

/-! Remaining helper lemmas for the claim theorems. -/

/-- Cellwise description of the spec-modelled unconditional triple loop. -/
theorem bruteForceUnconditional_C (s : St) (n a b : Nat) :
    (bruteForceUnconditional s n).C a b =
      if a < n ∧ b < n then dotPlain s.A s.B a b n else s.C a b :=
  ubI_C s n n a b

theorem St_ext {s t : St} (hA : s.A = t.A) (hB : s.B = t.B) (hC : s.C = t.C) :
    s = t := by
  cases s
  cases t
  cases hA
  cases hB
  cases hC
  rfl

theorem verifyRow_iff (A B : Mat) (i : Nat) :
    ∀ m, verifyRow A B i m = true ↔ ∀ j, j < m → A i j = B i j := by
  intro m
  induction m with
  | zero => simp [verifyRow]
  | succ m ih =>
      simp only [verifyRow, Bool.and_eq_true, ih, decide_eq_true_eq]
      constructor
      · rintro ⟨h1, h2⟩ j hj
        rcases Nat.lt_succ_iff_lt_or_eq.mp hj with h | h
        · exact h1 j h
        · rw [h]; exact h2
      · intro h
        exact ⟨fun j hj => h j (by omega), h m (by omega)⟩

theorem verifyAll_iff (A B : Mat) (n : Nat) :
    ∀ m, verifyAll A B n m = true ↔ ∀ i, i < m → ∀ j, j < n → A i j = B i j := by
  intro m
  induction m with
  | zero => simp [verifyAll]
  | succ m ih =>
      simp only [verifyAll, Bool.and_eq_true, ih, verifyRow_iff]
      constructor
      · rintro ⟨h1, h2⟩ i hi j hj
        rcases Nat.lt_succ_iff_lt_or_eq.mp hi with h | h
        · exact h1 i h j hj
        · rw [h]; exact h2 j hj
      · intro h
        exact ⟨fun i hi j hj => h i (by omega) j hj, fun j hj => h m (by omega) j hj⟩

/-! The claim theorems. -/

/-- C1: for every pair of square integer matrices whose size halves down to
the base case `n ≤ 2` (in particular every power of two),
`matrixMultiplyDivideConquer` produces a result elementwise equal to
`matrixMultiplyBruteForce` on the whole `n × n` extent. -/
theorem claim1_divide_conquer_eq_bruteforce (n : Nat) (hred : HalvesToBase n)
    (s : St) (i j : Nat) (hi : i < n) (hj : j < n) :
    (matrixMultiplyDivideConquer s n).C i j =
      (matrixMultiplyBruteForce s n).C i j := by
  simp only [matrixMultiplyDivideConquer]
  rw [dcAux_C_sum n n (le_refl n) hred s i j hi hj, bruteForce_C,
    if_pos ⟨hi, hj⟩, dotK_eq_sum]

/-- Witness for C1 at size `4` on concrete matrices. -/
theorem claim1_witness :
    HalvesToBase 4 ∧
      (matrixMultiplyDivideConquer
        ⟨fun i j => (i * 4 + j : Int), fun i j => (i + 2 * j : Int), zeroM⟩ 4).C 1 2 =
      (matrixMultiplyBruteForce
        ⟨fun i j => (i * 4 + j : Int), fun i j => (i + 2 * j : Int), zeroM⟩ 4).C 1 2 := by
  have hred : HalvesToBase 4 :=
    HalvesToBase.step 4 rfl (HalvesToBase.base 2 (by decide))
  exact ⟨hred, claim1_divide_conquer_eq_bruteforce 4 hred _ 1 2 (by decide) (by decide)⟩

/-- C2: the recursive engine follows exactly the claimed algorithm: base case
`n ≤ 2` delegates to brute force, otherwise quadrant split, the seven Strassen
products P1..P7 via recursive calls on elementwise pre-combinations, and the
four stated combination formulas (captured verbatim by `strassenSpec`). -/
theorem claim2_follows_strassen_algorithm (s : St) (n : Nat) :
    (matrixMultiplyDivideConquer s n).C = strassenSpec s.A s.B s.C n := by
  have h := dcAux_eq_spec n n s.A s.B s.C s.A s.B
    (fun _ _ _ _ => rfl) (fun _ _ _ _ => rfl)
  exact h

/-- C3: the brute force computes `C[i][j] = Σ_k A[i][k] * B[k][j]` on the
extent, and the zero-skipping loop gives a state identical to the
unconditional triple loop. -/
theorem claim3_bruteforce_correct (s : St) (n i j : Nat)
    (hi : i < n) (hj : j < n) :
    (matrixMultiplyBruteForce s n).C i j =
        (∑ k ∈ Finset.range n, s.A i k * s.B k j) ∧
      matrixMultiplyBruteForce s n = bruteForceUnconditional s n := by
  constructor
  · rw [bruteForce_C, if_pos ⟨hi, hj⟩, dotK_eq_sum]
  · refine St_ext ?_ ?_ ?_
    · exact (bfI_A s n n).trans (ubI_A s n n).symm
    · exact (bfI_B s n n).trans (ubI_B s n n).symm
    · funext a b
      rw [bruteForce_C, bruteForceUnconditional_C, dotK_eq_dotPlain]

/-- Witness for C3 at size `2` on concrete matrices. -/
theorem claim3_witness :
    (1 : Nat) < 2 ∧
      ((matrixMultiplyBruteForce
          ⟨fun i j => (i + j : Int), fun i j => (2 * i + j : Int), zeroM⟩ 2).C 1 1 =
        (∑ k ∈ Finset.range 2, ((1 + k : Nat) : Int) * ((2 * k + 1 : Nat) : Int)) ∧
        matrixMultiplyBruteForce
          ⟨fun i j => (i + j : Int), fun i j => (2 * i + j : Int), zeroM⟩ 2 =
        bruteForceUnconditional
          ⟨fun i j => (i + j : Int), fun i j => (2 * i + j : Int), zeroM⟩ 2) := by
  refine ⟨by decide, ?_⟩
  have h := claim3_bruteforce_correct
    ⟨fun i j => (i + j : Int), fun i j => (2 * i + j : Int), zeroM⟩ 2 1 1
    (by decide) (by decide)
  refine ⟨?_, h.2⟩
  rw [h.1]
  refine Finset.sum_congr rfl fun k hk => ?_
  push_cast
  ring

/-- C4: the engine never validates `n`; for odd `n > 2` the floor-division
split leaves the last row and column of `C` untouched, and there is a
concrete odd-size input on which the result differs from brute force. -/
theorem claim4_odd_truncation (n : Nat) (s : St)
    (hodd : n % 2 = 1) (h2 : 2 < n) :
    (∀ b, (matrixMultiplyDivideConquer s n).C (n - 1) b = s.C (n - 1) b ∧
        (matrixMultiplyDivideConquer s n).C b (n - 1) = s.C b (n - 1)) ∧
      (matrixMultiplyDivideConquer ⟨fun _ _ => 1, idM, zeroM⟩ 3).C 2 2 ≠
        (matrixMultiplyBruteForce ⟨fun _ _ => 1, idM, zeroM⟩ 3).C 2 2 := by
  constructor
  · intro b
    exact dcAux_odd_preserve n s n hodd h2 b
  · decide

/-- Witness for C4 at size `3`. -/
theorem claim4_witness :
    3 % 2 = 1 ∧ 2 < 3 ∧
      (matrixMultiplyDivideConquer
        ⟨fun i j => (i + j : Int), fun i j => (i * j : Int), zeroM⟩ 3).C 2 1 =
        zeroM 2 1 := by
  refine ⟨by decide, by decide, ?_⟩
  exact ((claim4_odd_truncation 3
    ⟨fun i j => (i + j : Int), fun i j => (i * j : Int), zeroM⟩
    (by decide) (by decide)).1 1).1

/-- Counterexample to C5 as stated: at the odd size `3`, multiplying the
matrix with a single `1` at `(2,2)` by the identity under
`matrixMultiplyDivideConquer` does not return the original matrix (the cell
`(2,2)` is never written and keeps the destination's initial zero). -/
theorem claim5_counterexample :
    ¬ ((matrixMultiplyDivideConquer
        ⟨fun i j => if i = 2 ∧ j = 2 then 1 else 0, idM, zeroM⟩ 3).C 2 2 =
      (fun i j : Nat => if i = 2 ∧ j = 2 then (1 : Int) else 0) 2 2) := by
  decide

/-- C5 (amended): multiplying any matrix by the identity returns the original
matrix on the whole extent — for `matrixMultiplyBruteForce` at every size,
and for `matrixMultiplyDivideConquer` at every size that halves to the base
case; for other (odd) sizes above `2` the divide-and-conquer result can
differ. -/
theorem claim5_identity_amended (s : St) (n : Nat) (hB : s.B = idM)
    (i j : Nat) (hi : i < n) (hj : j < n) :
    (matrixMultiplyBruteForce s n).C i j = s.A i j ∧
      (HalvesToBase n → (matrixMultiplyDivideConquer s n).C i j = s.A i j) := by
  have hsum : (∑ k ∈ Finset.range n, s.A i k * s.B k j) = s.A i j := by
    rw [hB]
    have hterm : ∀ k ∈ Finset.range n,
        s.A i k * idM k j = if k = j then s.A i k else 0 := by
      intro k _
      by_cases h : k = j
      · simp [idM, h]
      · simp [idM, h]
    rw [Finset.sum_congr rfl hterm,
      Finset.sum_ite_eq' (Finset.range n) j (fun k => s.A i k),
      if_pos (Finset.mem_range.mpr hj)]
  constructor
  · rw [bruteForce_C, if_pos ⟨hi, hj⟩, dotK_eq_sum, hsum]
  · intro hred
    simp only [matrixMultiplyDivideConquer]
    rw [dcAux_C_sum n n (le_refl n) hred s i j hi hj, hsum]

/-- Witness for the amended C5 at size `2`. -/
theorem claim5_witness :
    (1 : Nat) < 2 ∧ HalvesToBase 2 ∧
      (matrixMultiplyBruteForce
        ⟨fun i j => (3 * i + j : Int), idM, zeroM⟩ 2).C 1 0 = 3 ∧
      (matrixMultiplyDivideConquer
        ⟨fun i j => (3 * i + j : Int), idM, zeroM⟩ 2).C 1 0 = 3 := by
  have hred : HalvesToBase 2 := HalvesToBase.base 2 (by decide)
  have h := claim5_identity_amended
    ⟨fun i j => (3 * i + j : Int), idM, zeroM⟩ 2 rfl 1 0 (by decide) (by decide)
  refine ⟨by decide, hred, ?_, ?_⟩
  · rw [h.1]; decide
  · rw [h.2 hred]; decide

/-- C6: `addMatrix` and `subtractMatrix` realise elementwise sum and
difference on the extent, and subtracting `B` from the sum recovers `A`. -/
theorem claim6_add_sub_roundtrip (A B C D : Mat) (n i j : Nat)
    (hi : i < n) (hj : j < n) :
    addMatrix A B C n i j = A i j + B i j ∧
      subtractMatrix A B C n i j = A i j - B i j ∧
      subtractMatrix (addMatrix A B C n) B D n i j = A i j := by
  refine ⟨?_, ?_, ?_⟩
  · rw [addMatrix_apply, if_pos ⟨hi, hj⟩]
  · rw [subtractMatrix_apply, if_pos ⟨hi, hj⟩]
  · rw [subtractMatrix_apply, if_pos ⟨hi, hj⟩, addMatrix_apply, if_pos ⟨hi, hj⟩]
    ring

/-- Witness for C6 at size `2`. -/
theorem claim6_witness :
    (0 : Nat) < 2 ∧ (1 : Nat) < 2 ∧
      addMatrix (fun i j => (i + 5 * j : Int)) (fun i j => (2 * i + j : Int))
          zeroM 2 0 1 = 6 ∧
      subtractMatrix (addMatrix (fun i j => (i + 5 * j : Int))
            (fun i j => (2 * i + j : Int)) zeroM 2)
          (fun i j => (2 * i + j : Int)) zeroM 2 0 1 = 5 := by
  have h := claim6_add_sub_roundtrip (fun i j => (i + 5 * j : Int))
    (fun i j => (2 * i + j : Int)) zeroM zeroM 2 0 1 (by decide) (by decide)
  refine ⟨by decide, by decide, ?_, ?_⟩
  · rw [h.1]; decide
  · rw [h.2.2]; decide

/-- C7: `verifyMatrices` returns `true` exactly when all corresponding
entries inside the extent agree. -/
theorem claim7_verify_iff (A B : Mat) (n : Nat) :
    verifyMatrices A B n = true ↔ ∀ i, i < n → ∀ j, j < n → A i j = B i j :=
  verifyAll_iff A B n n

/-- C8: both multiplication routines write only the destination: the `A`
and `B` components of the state are returned unchanged for every size and
every input. -/
theorem claim8_frame (s : St) (n : Nat) :
    (matrixMultiplyBruteForce s n).A = s.A ∧
      (matrixMultiplyBruteForce s n).B = s.B ∧
      (matrixMultiplyDivideConquer s n).A = s.A ∧
      (matrixMultiplyDivideConquer s n).B = s.B :=
  ⟨bfI_A s n n, bfI_B s n n, dcAux_A n s n, dcAux_B n s n⟩

/-- C9: every reachable state of the static memo array stores only `0` or
`k!` modulo `2^64` at index `k`, and consequently `factorialDivideConquer`
agrees with `factorialBruteForce` for every `int` argument up to `99`, both
computing `n! mod 2^64` (with value `1` for `n ≤ 1`). -/
theorem claim9_factorial_memo (memo : Memo) (hr : ReachableMemo memo) :
    memoInv memo ∧
      ∀ n : Int, n ≤ 99 →
        (factorialDivideConquer n memo).1 = factorialBruteForce n ∧
          factorialBruteForce n = Nat.factorial n.toNat % M64 := by
  have hinv := reachableMemo_inv memo hr
  exact ⟨hinv, fun n _ =>
    ⟨factorialDivideConquer_val memo hinv n, factorialBruteForce_eq n⟩⟩

/-- Witness for C9 on the initial cache at `n = 5`. -/
theorem claim9_witness :
    ReachableMemo memoInit ∧ (5 : Int) ≤ 99 ∧
      (factorialDivideConquer 5 memoInit).1 = factorialBruteForce 5 := by
  refine ⟨ReachableMemo.init, by decide, ?_⟩
  exact ((claim9_factorial_memo memoInit ReachableMemo.init).2 5 (by decide)).1

/-- C10: the two primality tests agree on every `int` argument, both decide
primality of the argument (rejecting everything at most `1`), and therefore
the two prime counters agree everywhere. -/
theorem claim10_prime_equivalence (n : Int) :
    isPrimeBruteForce n = isPrimeDivideConquer n ∧
      (isPrimeBruteForce n = true ↔ 1 < n ∧ Nat.Prime n.toNat) ∧
      countPrimesBruteForce n = countPrimesDivideConquer n := by
  refine ⟨isPrime_eq n, isPrimeBruteForce_iff n, ?_⟩
  simp only [countPrimesBruteForce, countPrimesDivideConquer]
  exact cpGo_eq n.toNat

end BfDnc
